import Mathlib

/-!
Verification of the MindustryTool/ImageServer image-serving core.

The Go sources are shallowly embedded below.  Go strings (byte/char
sequences) are modelled as `List Char`; the filesystem is modelled by
explicit predicates (`openOk`, `createOk`, ...) passed to the embedded
functions, and every filesystem effect is returned explicitly.

Source map:
  * `src/handlers/image.go`  — `ServeImage` path resolution
    (`resolveImagePath` below), `containsPathTraversal`,
    `containsTraversalSequences`, `isWithinDirectory`, and the encode
    switch (`encodeSwitch`).
  * `src/models/file.go`     — `ExtSlice.Has`, `SupportedTypes`.
  * `src/unnamed/part_000`   — iteration "V0" of `utils/image.go`:
    `FindImage`, `ReadImage`, `loadImage`, `save`, `Scale`,
    `ApplyVariant`, `Preview`.
  * `src/unnamed/part_001`   — iteration "V1" of `utils/image.go`, the
    one the live handler calls (2-argument `ReadImage`).
  * Go standard library `path/filepath` on Linux (separator `'/'`, no
    volume names): `Clean`, `IsAbs`, `Join`, `Abs`, `Rel`, `Ext`,
    `VolumeName`, `ToSlash` are modelled by `clean`, `isAbs`,
    `filepathJoin`, `filepathAbs`, `filepathRel`, `filepathExt`,
    `volumeName`, `toSlash`.
-/

/-- A Go string, as its sequence of characters. -/
abbrev GoStr := List Char

/-- Split a character list at every occurrence of `c`
(the semantics of `strings.Split(s, string(c))`). -/
def splitOnChar (c : Char) : GoStr → List GoStr
  | [] => [[]]
  | x :: rest =>
    if x = c then [] :: splitOnChar c rest
    else
      match splitOnChar c rest with
      | [] => [[x]]
      | p :: ps => (x :: p) :: ps

/-- Join a list of components with separator `c`
(the semantics of `strings.Join(parts, string(c))`). -/
def joinChar (c : Char) : List GoStr → GoStr
  | [] => []
  | p :: ps =>
    match ps with
    | [] => p
    | _ :: _ => p ++ c :: joinChar c ps

/-- `filepath.IsAbs` on Linux: the path starts with `'/'`. -/
def isAbs (s : GoStr) : Bool :=
  match s with
  | [] => false
  | c :: _ => decide (c = '/')

/-- `filepath.ToSlash` on Linux is the identity (the separator is `'/'`). -/
def toSlash (s : GoStr) : GoStr := s

/-- `filepath.VolumeName` on Linux is always the empty string. -/
def volumeName (_ : GoStr) : GoStr := []

/-- The `".."` path component. -/
def dotdotStr : GoStr := ['.', '.']

/-- One step of Go `path.Clean`'s element processing (`filepath.Clean` on
Linux): skip empty and `"."` components; on `".."` backtrack when the
output has a trailing real component, otherwise keep the `".."` only for
relative (non-rooted) paths; push every other component. -/
def cleanStep (rooted : Bool) (acc : List GoStr) (part : GoStr) : List GoStr :=
  if part = [] ∨ part = ['.'] then acc
  else if part = dotdotStr then
    if acc = [] ∨ acc.getLast? = some dotdotStr then
      (if rooted then acc else acc ++ [dotdotStr])
    else acc.dropLast
  else acc ++ [part]

/-- Reassemble the cleaned components into a path string, restoring the
root slash and producing `"."` / `"/"` for an empty result, as
`path.Clean` does. -/
def cleanAssemble (rooted : Bool) (parts : List GoStr) : GoStr :=
  match parts with
  | [] => if rooted then ['/'] else ['.']
  | _ :: _ => if rooted then '/' :: joinChar '/' parts else joinChar '/' parts

/-- Go `filepath.Clean` on Linux (which agrees with `path.Clean`). -/
def clean (path : GoStr) : GoStr :=
  if path = [] then ['.']
  else cleanAssemble (isAbs path) (List.foldl (cleanStep (isAbs path)) [] (splitOnChar '/' path))

/-- `containsTraversalSequences` from `src/handlers/image.go` (lines
125-140): normalize separators (identity on Linux), split on `'/'`, and
look for a literal `".."` component. -/
def containsTraversalSequences (path : GoStr) : Bool :=
  (splitOnChar '/' (toSlash path)).any (fun part => decide (part = dotdotStr))

/-- `containsPathTraversal` from `src/handlers/image.go` (lines 116-122). -/
def containsPathTraversal (path : GoStr) : Bool :=
  decide (clean path ≠ path) || isAbs path ||
    decide (volumeName path ≠ []) || containsTraversalSequences path

/-- The leading-slash strip in `ServeImage` (`if len(cleanPath) > 0 &&
cleanPath[0] == '/' { cleanPath = cleanPath[1:] }`); the condition is
exactly `isAbs`. -/
def stripLeadingSlash (s : GoStr) : GoStr :=
  if isAbs s then s.drop 1 else s

/-- Go `filepath.Join` restricted to two elements: join the non-empty
elements with `'/'` and `Clean` the result. -/
def filepathJoin (a b : GoStr) : GoStr :=
  if a = [] then (if b = [] then [] else clean b)
  else clean (a ++ '/' :: b)

/-- Go `filepath.Abs`: `Clean` an absolute path, otherwise join with the
working directory `cwd` (`Getwd` is modelled as the explicit `cwd`
argument, and is never consulted on the absolute paths this code
resolves). -/
def filepathAbs (cwd p : GoStr) : GoStr :=
  if isAbs p then clean p else filepathJoin cwd p

/-- The path elements scanned by `filepath.Rel`'s comparison loop, for a
`Clean`ed input: `"."` (after the volume strip Go replaces it by the
empty string) contributes no elements, the root `"/"` contributes the
single empty element that precedes the separator, and any other cleaned
path contributes its `'/'`-separated components. -/
def pathElems (s : GoStr) : List GoStr :=
  if s = ['.'] then []
  else if s = ['/'] then [[]]
  else splitOnChar '/' s

/-- The element-comparison loop of `filepath.Rel`: strip the common
prefix; fail if the first differing base element is `".."`; otherwise
emit one `".."` per remaining base element followed by the remaining
target elements. -/
def relLoop : List GoStr → List GoStr → Option GoStr
  | [], ts => some (joinChar '/' ts)
  | b :: bs, [] =>
    if b = dotdotStr then none
    else some (joinChar '/' (List.replicate (bs.length + 1) dotdotStr))
  | b :: bs, t :: ts =>
    if b = t then relLoop bs ts
    else if b = dotdotStr then none
    else some (joinChar '/' (List.replicate (bs.length + 1) dotdotStr ++ t :: ts))

/-- Go `filepath.Rel` on Linux (no volume names): `Clean` both paths,
return `"."` for equal paths, fail when exactly one is rooted, and
otherwise compare elements with `relLoop`. -/
def filepathRel (basepath targpath : GoStr) : Option GoStr :=
  let base := clean basepath
  let targ := clean targpath
  if targ = base then some ['.']
  else if isAbs base ≠ isAbs targ then none
  else relLoop (pathElems base) (pathElems targ)

/-- `isWithinDirectory` from `src/handlers/image.go` (lines 143-168). -/
def isWithinDirectory (cwd targetPath baseDir : GoStr) : Bool :=
  let targetAbs := filepathAbs cwd targetPath
  let baseAbs := filepathAbs cwd baseDir
  if !isAbs targetAbs || !isAbs baseAbs then false
  else
    match filepathRel baseAbs targetAbs with
    | none => false
    | some r => !isAbs r && !containsTraversalSequences r

/-- Result of the path-resolution step of `ServeImage`
(`src/handlers/image.go` lines 27-65): HTTP 400 "Invalid path",
HTTP 403 "Access denied", or the resolved absolute file path. -/
inductive PathOutcome where
  | invalidPath
  | accessDenied
  | ok (absFilePath : GoStr)
deriving DecidableEq, Repr

/-- The path-resolution step of `ServeImage` (`src/handlers/image.go`
lines 27-65).  `baseDir` is the already-computed `filepath.Abs` of the
configured data directory, `cwd` the process working directory. -/
def resolveImagePath (cwd baseDir imagePath : GoStr) : PathOutcome :=
  let cleanPath := clean imagePath
  let cleanPath2 := stripLeadingSlash cleanPath
  if isAbs cleanPath2 || containsPathTraversal cleanPath2 then .invalidPath
  else
    let filePath := filepathJoin baseDir cleanPath2
    let absFilePath := filepathAbs cwd filePath
    if isWithinDirectory cwd absFilePath baseDir then .ok absFilePath
    else .accessDenied

/-- `p` lies inside `baseDir`: the root's `'/'`-separated components are
an initial segment of `p`'s components. -/
def withinRoot (baseDir p : GoStr) : Prop :=
  ∃ rest, splitOnChar '/' baseDir ++ rest = splitOnChar '/' p

/-- Go `filepath.Ext`: the suffix of the final element starting at its
last dot, or empty.  Implemented by scanning from the end until a `'/'`
or `'.'`. -/
def extScan (acc : GoStr) : GoStr → GoStr
  | [] => []
  | c :: rest =>
    if c = '/' then []
    else if c = '.' then '.' :: acc
    else extScan (c :: acc) rest

/-- Go `filepath.Ext`. -/
def filepathExt (path : GoStr) : GoStr := extScan [] path.reverse

/-- `ContainsDotFile` from `utils` (`src/unnamed/part_001` lines 18-26):
some `'/'`-separated component starts with `'.'`. -/
def ContainsDotFile (name : GoStr) : Bool :=
  (splitOnChar '/' name).any (fun part =>
    match part with
    | '.' :: _ => true
    | _ => false)

/-- `ExtSlice.Has` from `src/models/file.go` (lines 18-25): Go
`strings.HasSuffix(a, b)` for some member `b` of the list. -/
def ExtSlice.Has (list : List GoStr) (a : GoStr) : Bool :=
  list.any (fun b => List.isSuffixOf b a)

/-- `models.SupportedTypes` (`src/models/file.go` lines 27-34). -/
def SupportedTypes : List GoStr :=
  ["jpg".toList, "png".toList, "gif".toList, "webp".toList, "jpeg".toList, "svg".toList]

/-- Pixel lookup of a decoded raster (content is never inspected by the
properties below). -/
def Pix := Nat → Nat → Nat

/-- An in-memory decoded image: the `Dx`/`Dy` of its bounds plus its
pixel content. -/
structure GoImage where
  width : Nat
  height : Nat
  pix : Pix

/-- The pixel content produced by a `draw.Scaler` (`draw.BiLinear.Scale`
in `part_001`, `draw.CatmullRom.Scale` in `part_002`) writing a source
image into a `newW × newH` destination.  The resampling kernel is
floating-point and left abstract; no claim below depends on resampled
pixel values. -/
def Resample := GoImage → Nat → Nat → Pix

/-- `Scale` from `utils` (`src/unnamed/part_000` lines 124-142 and
`src/unnamed/part_001` lines 76-94; both compute the same dimensions).
Go computes `int(float64(srcH) * float64(size) / float64(srcW))`; for
`srcH * size < 2^53` the float64 products are exact and truncating the
rounded quotient equals the rational floor, i.e. `Nat` division, which
is how it is modelled here (the theorems carry that bound as a
hypothesis). -/
def Scale (resample : Resample) (img : GoImage) (size : Nat) : GoImage :=
  let srcW := img.width
  let srcH := img.height
  if srcW > srcH then
    { width := size, height := srcH * size / srcW, pix := resample img size (srcH * size / srcW) }
  else
    { width := srcW * size / srcH, height := size, pix := resample img (srcW * size / srcH) size }

/-- The `".png"` suffix literal. -/
def pngExt : GoStr := ".png".toList

/-- The `".jpg"` suffix literal. -/
def jpgExt : GoStr := ".jpg".toList

/-- The `".webp"` suffix literal. -/
def webpExt : GoStr := ".webp".toList

/-- The `".jpeg"` suffix literal. -/
def jpegExt : GoStr := ".jpeg".toList

/-- The ordered source-candidate list tried by `FindImage`
(`src/unnamed/part_000` lines 27-46) and by the open cascade of
`ReadImage` (`src/unnamed/part_001` lines 29-44). -/
def sourceCandidates (filePath : GoStr) : List GoStr :=
  [filePath,
   filePath ++ pngExt,
   filePath ++ jpgExt,
   filePath ++ webpExt,
   filePath ++ jpegExt]

namespace V0

/-- `FindImage` from `src/unnamed/part_000` lines 27-46: try the exact
path, then `.png`, `.jpg`, `.webp`, `.jpeg`; on total failure Go
returns `(nil, nil)`, modelled as `none`.  `openOk` models which paths
`os.Open` succeeds on. -/
def FindImage (openOk : GoStr → Bool) (filePath : GoStr) : Option GoStr :=
  if openOk filePath then some filePath
  else if openOk (filePath ++ pngExt) then some (filePath ++ pngExt)
  else if openOk (filePath ++ jpgExt) then some (filePath ++ jpgExt)
  else if openOk (filePath ++ webpExt) then some (filePath ++ webpExt)
  else if openOk (filePath ++ jpegExt) then some (filePath ++ jpegExt)
  else none

/-- `Preview` from `src/unnamed/part_000` lines 153-158: scale the
longest side to 256. -/
def Preview (resample : Resample) (img : GoImage) : GoImage :=
  Scale resample img 256

/-- `ApplyVariant` from `src/unnamed/part_000` lines 144-151: dispatch
on the variant name; every unknown name falls through to the default
case and returns the input image unchanged (the Go signature returns
`image.Image` with no error value). -/
def ApplyVariant (resample : Resample) (img : GoImage) (variant : GoStr) : GoImage :=
  if variant = "preview".toList then Preview resample img else img

/-- The filesystem-effect environment for the V0 `utils`: which paths
`os.Open` and `os.Create` succeed on, what `image.Decode` yields for an
opened file, and whether the `png`/`jpeg` encoders succeed writing to a
created file. -/
structure Env where
  openOk : GoStr → Bool
  decodeImage : GoStr → Option GoImage
  createOk : GoStr → Bool
  pngEncodeOk : GoStr → Bool
  jpegEncodeOk : GoStr → Bool

/-- `save` from `src/unnamed/part_000` lines 103-122.  It creates
`path + "." + ext` and dispatches on `ext`; the `webp` case is
commented out in the source, so any extension other than
`png`/`jpg`/`jpeg` falls to `default: return nil`.  Returns (whether a
non-nil error was returned, the list of files successfully created). -/
def save (env : Env) (path : GoStr) (img : GoImage) (ext : GoStr) : Bool × List GoStr :=
  let target := path ++ '.' :: ext
  if env.createOk target then
    if ext = "png".toList then (!env.pngEncodeOk target, [target])
    else if ext = "jpg".toList ∨ ext = "jpeg".toList then (!env.jpegEncodeOk target, [target])
    else (false, [target])
  else (true, [])

/-- `loadImage` from `src/unnamed/part_000` lines 78-100: `FindImage`
then `image.Decode`; `(nil, nil)` when no candidate exists. -/
def loadImage (env : Env) (path : GoStr) : Except GoStr (Option GoImage) :=
  match FindImage env.openOk path with
  | none => .ok none
  | some name =>
    match env.decodeImage name with
    | none => .error "image: unknown format".toList
    | some img => .ok (some img)

/-- The variant path built by `ReadImage` (`src/unnamed/part_000` line
67): `filePath + "." + variant + "." + ext`. -/
def variantPath (filePath variant ext : GoStr) : GoStr :=
  filePath ++ '.' :: variant ++ '.' :: ext

/-- The path at which `ReadImage`'s call to `save` actually creates the
derived file: `save` appends `"." + ext` to the variant path again. -/
def persistedVariantPath (filePath variant ext : GoStr) : GoStr :=
  variantPath filePath variant ext ++ '.' :: ext

/-- `ReadImage` from `src/unnamed/part_000` lines 48-76.  Returns the
Go result (`(nil, err)`, `(nil, nil)` or `(img, nil)`) together with
the list of files created on disk. -/
def ReadImage (env : Env) (resample : Resample) (filePath variant ext : GoStr) :
    Except GoStr (Option GoImage) × List GoStr :=
  match loadImage env filePath with
  | .error e => (.error e, [])
  | .ok none => (.ok none, [])
  | .ok (some img) =>
    if variant = [] then (.ok (some img), [])
    else
      let img2 := ApplyVariant resample img variant
      let out := save env (variantPath filePath variant ext) img2 ext
      if out.1 then (.error "save failed".toList, out.2)
      else (.ok (some img2), out.2)

end V0

namespace V1

/-- `Preview` from `src/unnamed/part_001` lines 105-110: scale the
longest side to `256 + 128`. -/
def Preview (resample : Resample) (img : GoImage) : GoImage :=
  Scale resample img (256 + 128)

/-- `ApplyVariant` from `src/unnamed/part_001` lines 96-103. -/
def ApplyVariant (resample : Resample) (img : GoImage) (variant : GoStr) : GoImage :=
  if variant = "preview".toList then Preview resample img else img

/-- Filesystem-effect environment for the live V1 `utils`:
`os.Open`/`file.Stat`/`Stat().IsDir()` behaviour per path, the result
of `png.Decode` on an opened file, and `os.Create`/`png.Encode`
behaviour for the variant file. -/
structure FSEnv where
  openOk : GoStr → Bool
  statFails : GoStr → Bool
  isDir : GoStr → Bool
  decodePng : GoStr → Option GoImage
  createOk : GoStr → Bool
  pngEncodeOk : GoStr → Bool

/-- `ReadImage` from `src/unnamed/part_001` lines 28-74 — the version
the live handler calls (`utils.ReadImage(filePathNoExt, variant)`).
The open cascade tries the exact path then `.png`, `.jpg`, `.webp`,
`.jpeg`; total failure returns `errors.New("file not found")`.  A
non-empty variant is applied and always re-encoded to
`filePath + "." + variant + filepath.Ext(filePath)`. -/
def ReadImage (env : FSEnv) (resample : Resample) (filePath variant : GoStr) :
    Except GoStr GoImage :=
  let fileOpt :=
    if env.openOk filePath then some filePath
    else if env.openOk (filePath ++ pngExt) then some (filePath ++ pngExt)
    else if env.openOk (filePath ++ jpgExt) then some (filePath ++ jpgExt)
    else if env.openOk (filePath ++ webpExt) then some (filePath ++ webpExt)
    else if env.openOk (filePath ++ jpegExt) then some (filePath ++ jpegExt)
    else none
  match fileOpt with
  | none => .error "file not found".toList
  | some name =>
    if env.statFails name || env.isDir name || ContainsDotFile name then
      .error "file not found".toList
    else
      match env.decodePng name with
      | none => .error "error decoding image: ".toList
      | some img =>
        if variant = [] then .ok img
        else
          let vp := filePath ++ '.' :: variant ++ filepathExt filePath
          let img2 := ApplyVariant resample img variant
          if env.createOk vp then
            if env.pngEncodeOk vp then .ok img2
            else .error "error encoding variant image: ".toList
          else .error "error creating variant file: ".toList

end V1

/-- Whether an `Except` is a success. -/
def exceptOk {ε α : Type} : Except ε α → Bool
  | .ok _ => true
  | .error _ => false

/-- The HTTP status `ServeImage` produces at the `utils.ReadImage` call
(`src/handlers/image.go` lines 90-96): any error — including the
"file not found" one — is answered with 500 "Error reading image",
otherwise the handler proceeds with `c.Status(200)`. -/
def serveImageReadStatus (env : V1.FSEnv) (resample : Resample)
    (filePathNoExt variant : GoStr) : Nat :=
  match V1.ReadImage env resample filePathNoExt variant with
  | .error _ => 500
  | .ok _ => 200

/-- The encode dispatch at the tail of `ServeImage`
(`src/handlers/image.go` lines 99-112). -/
inductive EncodeOutcome where
  | jpegBody
  | pngBody
  | badRequest (msg : GoStr)
deriving DecidableEq, Repr

/-- The `switch format` at `src/handlers/image.go` lines 99-112:
`jpg`/`jpeg` and `png` are encoded; everything else answers HTTP 400
`"Unsupported format: " + format`. -/
def encodeSwitch (format : GoStr) : EncodeOutcome :=
  if format = "jpg".toList ∨ format = "jpeg".toList then .jpegBody
  else if format = "png".toList then .pngBody
  else .badRequest ("Unsupported format: ".toList ++ format)

/-- A concrete resampler for witnesses (pixel content is irrelevant to
every property below). -/
def resampleZero : Resample := fun _ _ _ _ _ => 0

/-- A concrete 3×2 raster. -/
def imgThreeTwo : GoImage := ⟨3, 2, fun _ _ => 0⟩

/-- A concrete 4×2 raster. -/
def imgFourTwo : GoImage := ⟨4, 2, fun _ _ => 0⟩

/-- A concrete degenerate 1000×1 raster (extremely wide source). -/
def imgWide : GoImage := ⟨1000, 1, fun _ _ => 0⟩

/-- A V1 environment in which no path exists at all. -/
def envNone : V1.FSEnv :=
  ⟨fun _ => false, fun _ => false, fun _ => false, fun _ => none, fun _ => false, fun _ => false⟩

/-- A V0 environment in which every path exists (in particular every
derived variant file already exists), every open/create succeeds and
decoding yields the 4×2 raster. -/
def envAll : V0.Env :=
  ⟨fun _ => true, fun _ => some imgFourTwo, fun _ => true, fun _ => true, fun _ => true⟩

theorem splitOnChar_ne_nil (c : Char) (s : GoStr) : splitOnChar c s ≠ [] := by
  induction s with
  | nil => simp [splitOnChar]
  | cons x rest ih =>
    simp only [splitOnChar]
    split
    · simp
    · split
      · simp
      · simp

theorem not_mem_of_mem_splitOnChar (c : Char) (s : GoStr) :
    ∀ x ∈ splitOnChar c s, c ∉ x := by
  induction s with
  | nil =>
    intro x hx
    simp [splitOnChar] at hx
    simp [hx]
  | cons a rest ih =>
    intro x hx
    simp only [splitOnChar] at hx
    by_cases hac : a = c
    · rw [if_pos hac] at hx
      rcases List.mem_cons.mp hx with h | h
      · simp [h]
      · exact ih x h
    · rw [if_neg hac] at hx
      rcases hsp : splitOnChar c rest with _ | ⟨p, ps⟩
      · exact absurd hsp (splitOnChar_ne_nil c rest)
      · rw [hsp] at hx
        rcases List.mem_cons.mp hx with h | h
        · subst h
          intro hmem
          rcases List.mem_cons.mp hmem with h | h
          · exact hac h.symm
          · exact ih p (by simp [hsp]) h
        · exact ih x (by simp [hsp, h])

theorem splitOnChar_append (c : Char) (a b : GoStr) :
    splitOnChar c (a ++ c :: b) = splitOnChar c a ++ splitOnChar c b := by
  induction a with
  | nil => simp [splitOnChar]
  | cons x rest ih =>
    by_cases hxc : x = c
    · simp only [List.cons_append, splitOnChar, if_pos hxc]
      simp [ih]
    · simp only [List.cons_append, splitOnChar, if_neg hxc]
      simp only [List.append_eq]
      rw [ih]
      rcases hsp : splitOnChar c rest with _ | ⟨p, ps⟩
      · exact absurd hsp (splitOnChar_ne_nil c rest)
      · rfl

theorem splitOnChar_of_not_mem {c : Char} {s : GoStr} (h : c ∉ s) :
    splitOnChar c s = [s] := by
  induction s with
  | nil => simp [splitOnChar]
  | cons x rest ih =>
    have hxc : x ≠ c := fun he => h (by simp [he])
    have hrest : c ∉ rest := fun hm => h (by simp [hm])
    simp only [splitOnChar, if_neg hxc, ih hrest]

theorem splitOnChar_joinChar (c : Char) (parts : List GoStr)
    (hne : parts ≠ []) (hfree : ∀ x ∈ parts, c ∉ x) :
    splitOnChar c (joinChar c parts) = parts := by
  induction parts with
  | nil => exact absurd rfl hne
  | cons p ps ih =>
    cases ps with
    | nil =>
      simp only [joinChar]
      exact splitOnChar_of_not_mem (hfree p (by simp))
    | cons q qs =>
      have hstep : joinChar c (p :: q :: qs) = p ++ c :: joinChar c (q :: qs) := rfl
      rw [hstep, splitOnChar_append, splitOnChar_of_not_mem (hfree p (by simp)),
        ih (by simp) (fun x hx => hfree x (by simp [hx]))]
      rfl

theorem joinChar_splitOnChar (c : Char) (s : GoStr) :
    joinChar c (splitOnChar c s) = s := by
  induction s with
  | nil => simp [splitOnChar, joinChar]
  | cons x rest ih =>
    by_cases hxc : x = c
    · subst hxc
      have hx : splitOnChar x (x :: rest) = [] :: splitOnChar x rest := by
        simp [splitOnChar]
      rw [hx]
      rcases hsp : splitOnChar x rest with _ | ⟨p, ps⟩
      · exact absurd hsp (splitOnChar_ne_nil x rest)
      · rw [hsp] at ih
        have hj : joinChar x ([] :: p :: ps) = [] ++ x :: joinChar x (p :: ps) := rfl
        rw [hj]
        simp only [List.nil_append]
        rw [ih]
    · simp only [splitOnChar, if_neg hxc]
      rcases hsp : splitOnChar c rest with _ | ⟨p, ps⟩
      · exact absurd hsp (splitOnChar_ne_nil c rest)
      · rw [hsp] at ih
        cases ps with
        | nil =>
          simp only [joinChar] at ih ⊢
          rw [ih]
        | cons q qs =>
          have h1 : joinChar c ((x :: p) :: q :: qs) = (x :: p) ++ c :: joinChar c (q :: qs) := rfl
          have h2 : joinChar c (p :: q :: qs) = p ++ c :: joinChar c (q :: qs) := rfl
          rw [h1]
          rw [h2] at ih
          simp only [List.cons_append]
          rw [ih]

theorem isAbs_ne_nil {s : GoStr} (h : isAbs s = true) : s ≠ [] := by
  intro he
  subst he
  simp [isAbs] at h

theorem isAbs_cons {s : GoStr} (h : isAbs s = true) : ∃ t, s = '/' :: t := by
  cases s with
  | nil => simp [isAbs] at h
  | cons c t =>
    have hc : c = '/' := by
      unfold isAbs at h
      exact of_decide_eq_true h
    exact ⟨t, by rw [hc]⟩

theorem foldl_cleanStep_eq_append (r : Bool) (parts : List GoStr)
    (h : ∀ p ∈ parts, p ≠ dotdotStr) (st : List GoStr) :
    List.foldl (cleanStep r) st parts
      = st ++ parts.filter (fun p => !decide (p = [] ∨ p = ['.'])) := by
  induction parts generalizing st with
  | nil => simp
  | cons p ps ih =>
    have hp : p ≠ dotdotStr := h p (by simp)
    have htail : ∀ q ∈ ps, q ≠ dotdotStr := fun q hq => h q (by simp [hq])
    by_cases hskip : p = [] ∨ p = ['.']
    · simp only [List.foldl_cons, cleanStep, if_pos hskip]
      rw [ih htail st, List.filter_cons, if_neg (by rw [decide_eq_true hskip]; simp)]
    · simp only [List.foldl_cons, cleanStep, if_neg hskip, if_neg hp]
      rw [ih htail (st ++ [p]), List.filter_cons, if_pos (by simpa using hskip)]
      simp

theorem mem_cleanStep (r : Bool) (st : List GoStr) (p x : GoStr)
    (hx : x ∈ cleanStep r st p) : x ∈ st ∨ x = p ∨ x = dotdotStr := by
  unfold cleanStep at hx
  by_cases hskip : p = [] ∨ p = ['.']
  · rw [if_pos hskip] at hx
    exact Or.inl hx
  · rw [if_neg hskip] at hx
    by_cases hdd : p = dotdotStr
    · rw [if_pos hdd] at hx
      by_cases hb : st = [] ∨ st.getLast? = some dotdotStr
      · rw [if_pos hb] at hx
        by_cases hr : r = true
        · rw [hr, if_pos rfl] at hx
          exact Or.inl hx
        · rw [Bool.not_eq_true] at hr
          rw [hr] at hx
          simp only [Bool.false_eq_true, if_false] at hx
          rcases List.mem_append.mp hx with h | h
          · exact Or.inl h
          · simp at h
            exact Or.inr (Or.inr h)
      · rw [if_neg hb] at hx
        exact Or.inl (List.dropLast_subset st hx)
    · rw [if_neg hdd] at hx
      rcases List.mem_append.mp hx with h | h
      · exact Or.inl h
      · simp at h
        exact Or.inr (Or.inl h)

theorem mem_foldl_cleanStep (r : Bool) (parts : List GoStr) (st : List GoStr) (x : GoStr)
    (hx : x ∈ List.foldl (cleanStep r) st parts) :
    x ∈ st ∨ x ∈ parts ∨ x = dotdotStr := by
  induction parts generalizing st with
  | nil => exact Or.inl hx
  | cons p ps ih =>
    rw [List.foldl_cons] at hx
    rcases ih (cleanStep r st p) hx with h | h | h
    · rcases mem_cleanStep r st p x h with h' | h' | h'
      · exact Or.inl h'
      · exact Or.inr (Or.inl (by simp [h']))
      · exact Or.inr (Or.inr h')
    · exact Or.inr (Or.inl (by simp [h]))
    · exact Or.inr (Or.inr h)

theorem dotdot_not_mem_foldl_rooted (parts : List GoStr) (st : List GoStr)
    (hst : dotdotStr ∉ st) : dotdotStr ∉ List.foldl (cleanStep true) st parts := by
  induction parts generalizing st with
  | nil => exact hst
  | cons p ps ih =>
    rw [List.foldl_cons]
    refine ih (cleanStep true st p) ?_
    unfold cleanStep
    by_cases hskip : p = [] ∨ p = ['.']
    · rw [if_pos hskip]
      exact hst
    · rw [if_neg hskip]
      by_cases hdd : p = dotdotStr
      · rw [if_pos hdd]
        by_cases hb : st = [] ∨ st.getLast? = some dotdotStr
        · rw [if_pos hb, if_pos rfl]
          exact hst
        · rw [if_neg hb]
          exact fun hmem => hst (List.dropLast_subset st hmem)
      · rw [if_neg hdd]
        intro hmem
        rcases List.mem_append.mp hmem with h | h
        · exact hst h
        · simp at h
          exact hdd h.symm

theorem good_foldl_cleanStep (r : Bool) (parts : List GoStr) (st : List GoStr)
    (hst : ∀ x ∈ st, ¬(x = [] ∨ x = ['.'])) :
    ∀ x ∈ List.foldl (cleanStep r) st parts, ¬(x = [] ∨ x = ['.']) := by
  induction parts generalizing st with
  | nil => exact hst
  | cons p ps ih =>
    rw [List.foldl_cons]
    refine ih (cleanStep r st p) ?_
    intro x hx
    unfold cleanStep at hx
    by_cases hskip : p = [] ∨ p = ['.']
    · rw [if_pos hskip] at hx
      exact hst x hx
    · rw [if_neg hskip] at hx
      by_cases hdd : p = dotdotStr
      · rw [if_pos hdd] at hx
        by_cases hb : st = [] ∨ st.getLast? = some dotdotStr
        · rw [if_pos hb] at hx
          by_cases hr : r = true
          · rw [hr, if_pos rfl] at hx
            exact hst x hx
          · rw [Bool.not_eq_true] at hr
            rw [hr] at hx
            simp only [Bool.false_eq_true, if_false] at hx
            rcases List.mem_append.mp hx with h | h
            · exact hst x h
            · simp at h
              subst h
              decide
        · rw [if_neg hb] at hx
          exact hst x (List.dropLast_subset st hx)
      · rw [if_neg hdd] at hx
        rcases List.mem_append.mp hx with h | h
        · exact hst x h
        · simp at h
          subst h
          exact hskip

theorem slashfree_foldl_cleanStep (r : Bool) (s : GoStr) (x : GoStr)
    (hx : x ∈ List.foldl (cleanStep r) [] (splitOnChar '/' s)) : '/' ∉ x := by
  rcases mem_foldl_cleanStep r (splitOnChar '/' s) [] x hx with h | h | h
  · simp at h
  · exact not_mem_of_mem_splitOnChar '/' s x h
  · subst h
    decide

theorem isAbs_clean {s : GoStr} (h : isAbs s = true) : isAbs (clean s) = true := by
  unfold clean
  rw [if_neg (isAbs_ne_nil h), h]
  unfold cleanAssemble
  rcases List.foldl (cleanStep true) [] (splitOnChar '/' s) with _ | ⟨p, ps⟩
  · decide
  · simp [isAbs]

theorem clean_slash : clean ['/'] = ['/'] := by decide

theorem splitOnChar_cons_slash (s : GoStr) :
    splitOnChar '/' ('/' :: s) = [] :: splitOnChar '/' s := by
  simp [splitOnChar]

theorem clean_clean_of_isAbs {s : GoStr} (h : isAbs s = true) : clean (clean s) = clean s := by
  have hrw : clean s = cleanAssemble true (List.foldl (cleanStep true) [] (splitOnChar '/' s)) := by
    unfold clean
    rw [if_neg (isAbs_ne_nil h), h]
  rcases hR : List.foldl (cleanStep true) [] (splitOnChar '/' s) with _ | ⟨r, rs⟩
  · rw [hrw, hR]
    unfold cleanAssemble
    simp only [if_pos rfl]
    exact clean_slash
  · have hdd : dotdotStr ∉ List.foldl (cleanStep true) [] (splitOnChar '/' s) :=
      dotdot_not_mem_foldl_rooted _ [] (by simp)
    have hgood : ∀ x ∈ List.foldl (cleanStep true) [] (splitOnChar '/' s), ¬(x = [] ∨ x = ['.']) :=
      good_foldl_cleanStep true _ [] (by simp)
    have hfree : ∀ x ∈ List.foldl (cleanStep true) [] (splitOnChar '/' s), '/' ∉ x :=
      fun x hx => slashfree_foldl_cleanStep true s x hx
    rw [hR] at hdd hgood hfree
    have hcs : clean s = '/' :: joinChar '/' (r :: rs) := by
      rw [hrw, hR]
      rfl
    rw [hcs]
    unfold clean
    rw [if_neg (by simp)]
    have habs2 : isAbs ('/' :: joinChar '/' (r :: rs)) = true := by simp [isAbs]
    rw [habs2, splitOnChar_cons_slash, splitOnChar_joinChar '/' (r :: rs) (by simp) hfree]
    have hstep0 : cleanStep true [] [] = [] := by decide
    rw [List.foldl_cons, hstep0,
      foldl_cleanStep_eq_append true (r :: rs) (fun p hp he => hdd (he ▸ hp)) [],
      List.filter_eq_self.mpr (fun a ha => by
        rw [Bool.not_eq_eq_eq_not]
        simp only [Bool.not_true]
        exact decide_eq_false (hgood a ha))]
    rfl

theorem splitOnChar_clean_append (baseDir c : GoStr)
    (h1 : isAbs baseDir = true) (h2 : clean baseDir = baseDir) (h3 : baseDir ≠ ['/'])
    (hc : containsTraversalSequences c = false) :
    ∃ rest, splitOnChar '/' baseDir ++ rest = splitOnChar '/' (clean (baseDir ++ '/' :: c)) := by
  have hrw : clean baseDir
      = cleanAssemble true (List.foldl (cleanStep true) [] (splitOnChar '/' baseDir)) := by
    unfold clean
    rw [if_neg (isAbs_ne_nil h1), h1]
  rcases hR : List.foldl (cleanStep true) [] (splitOnChar '/' baseDir) with _ | ⟨r, rs⟩
  · exfalso
    apply h3
    rw [← h2, hrw, hR]
    rfl
  · have hdd : dotdotStr ∉ List.foldl (cleanStep true) [] (splitOnChar '/' baseDir) :=
      dotdot_not_mem_foldl_rooted _ [] (by simp)
    have hfree : ∀ x ∈ List.foldl (cleanStep true) [] (splitOnChar '/' baseDir), '/' ∉ x :=
      fun x hx => slashfree_foldl_cleanStep true baseDir x hx
    rw [hR] at hdd hfree
    have hbd : baseDir = '/' :: joinChar '/' (r :: rs) := by
      conv_lhs => rw [← h2, hrw, hR]
      rfl
    have hsplitB : splitOnChar '/' baseDir = [] :: r :: rs := by
      rw [hbd, splitOnChar_cons_slash, splitOnChar_joinChar '/' (r :: rs) (by simp) hfree]
    have hcparts : ∀ p ∈ splitOnChar '/' c, p ≠ dotdotStr := by
      intro p hp he
      have hfalse : (splitOnChar '/' c).any (fun part => decide (part = dotdotStr)) = false := hc
      have h4 := List.any_eq_false.mp hfalse p hp
      rw [he] at h4
      simp at h4
    have habsIn : isAbs (baseDir ++ '/' :: c) = true := by
      obtain ⟨t, ht⟩ := isAbs_cons h1
      rw [ht]
      simp [isAbs]
    have hneIn : baseDir ++ '/' :: c ≠ [] := by
      intro he
      exact isAbs_ne_nil h1 (List.append_eq_nil.mp he).1
    have hsplitIn : splitOnChar '/' (baseDir ++ '/' :: c)
        = splitOnChar '/' baseDir ++ splitOnChar '/' c := splitOnChar_append '/' baseDir c
    have hfold : List.foldl (cleanStep true) [] (splitOnChar '/' (baseDir ++ '/' :: c))
        = (r :: rs) ++ (splitOnChar '/' c).filter (fun p => !decide (p = [] ∨ p = ['.'])) := by
      rw [hsplitIn, List.foldl_append, hR, foldl_cleanStep_eq_append true _ hcparts]
    have hfiltfree : ∀ x ∈ (splitOnChar '/' c).filter (fun p => !decide (p = [] ∨ p = ['.'])),
        '/' ∉ x :=
      fun x hx => not_mem_of_mem_splitOnChar '/' c x (List.mem_of_mem_filter hx)
    refine ⟨(splitOnChar '/' c).filter (fun p => !decide (p = [] ∨ p = ['.'])), ?_⟩
    unfold clean
    rw [if_neg hneIn, habsIn, hfold, List.cons_append]
    have hassemble :
        cleanAssemble true
            (r :: (rs ++ (splitOnChar '/' c).filter (fun p => !decide (p = [] ∨ p = ['.']))))
          = '/' :: joinChar '/'
              (r :: (rs ++ (splitOnChar '/' c).filter (fun p => !decide (p = [] ∨ p = ['.'])))) := rfl
    rw [hassemble, splitOnChar_cons_slash,
      splitOnChar_joinChar '/' _ (by simp) (by
        intro x hx
        rcases List.mem_cons.mp hx with hxr | hx2
        · exact hxr ▸ hfree r (by simp)
        · rcases List.mem_append.mp hx2 with hmem | hmem
          · exact hfree x (by simp [hmem])
          · exact hfiltfree x hmem)]
    rw [hsplitB]
    simp

/-- C1, as stated, is false: the request path `"/../etc/passwd"` contains
a `".."` segment before normalization, yet `ServeImage`'s path
resolution returns neither `InvalidPath` (400) nor `AccessDenied` (403):
`filepath.Clean` absorbs the leading `".."` into the root and the
request resolves (inside the root) to `/data/etc/passwd`. -/
theorem c1_traversal_counterexample :
    containsTraversalSequences ("/../etc/passwd".toList) = true ∧
    resolveImagePath ("/srv".toList) ("/data".toList) ("/../etc/passwd".toList)
      = PathOutcome.ok ("/data/etc/passwd".toList) := by
  constructor
  · decide
  · decide

/-- C1 (amended): for every request path whose `filepath.Clean`ed,
slash-stripped form still contains a `".."` segment, `ServeImage`'s path
resolution returns `InvalidPath`; `".."` segments present only before
normalization may be absorbed by `Clean`, but every successfully
resolved path stays within the configured root (the root's
`'/'`-components are an initial segment of the resolved path's
components). -/
theorem c1_traversal_amended (cwd baseDir imagePath : GoStr)
    (h1 : isAbs baseDir = true) (h2 : clean baseDir = baseDir) (h3 : baseDir ≠ ['/']) :
    (containsTraversalSequences (stripLeadingSlash (clean imagePath)) = true →
        resolveImagePath cwd baseDir imagePath = PathOutcome.invalidPath) ∧
    (∀ p, resolveImagePath cwd baseDir imagePath = PathOutcome.ok p → withinRoot baseDir p) := by
  constructor
  · intro htrav
    have hcond : (isAbs (stripLeadingSlash (clean imagePath))
        || containsPathTraversal (stripLeadingSlash (clean imagePath))) = true := by
      unfold containsPathTraversal
      rw [htrav]
      simp
    simp only [resolveImagePath]
    rw [hcond]
    rfl
  · intro p hp
    simp only [resolveImagePath] at hp
    by_cases hguard : (isAbs (stripLeadingSlash (clean imagePath))
        || containsPathTraversal (stripLeadingSlash (clean imagePath))) = true
    · rw [if_pos hguard] at hp
      exact absurd hp (by simp)
    · rw [if_neg hguard] at hp
      have hcpt : containsPathTraversal (stripLeadingSlash (clean imagePath)) = false := by
        rcases hb : containsPathTraversal (stripLeadingSlash (clean imagePath)) with _ | _
        · rfl
        · exact absurd (by rw [hb]; simp) hguard
      have htravFalse :
          containsTraversalSequences (stripLeadingSlash (clean imagePath)) = false := by
        unfold containsPathTraversal at hcpt
        rcases hb : containsTraversalSequences (stripLeadingSlash (clean imagePath)) with _ | _
        · rfl
        · rw [hb] at hcpt
          simp at hcpt
      have hbne : baseDir ≠ [] := isAbs_ne_nil h1
      have hJoin : filepathJoin baseDir (stripLeadingSlash (clean imagePath))
          = clean (baseDir ++ '/' :: stripLeadingSlash (clean imagePath)) := by
        unfold filepathJoin
        rw [if_neg hbne]
      have habsIn : isAbs (baseDir ++ '/' :: stripLeadingSlash (clean imagePath)) = true := by
        obtain ⟨t, ht⟩ := isAbs_cons h1
        rw [ht]
        simp [isAbs]
      have habsJ : isAbs (clean (baseDir ++ '/' :: stripLeadingSlash (clean imagePath))) = true :=
        isAbs_clean habsIn
      have hAbs : filepathAbs cwd (filepathJoin baseDir (stripLeadingSlash (clean imagePath)))
          = clean (baseDir ++ '/' :: stripLeadingSlash (clean imagePath)) := by
        rw [hJoin]
        unfold filepathAbs
        rw [if_pos habsJ]
        exact clean_clean_of_isAbs habsIn
      rw [hAbs] at hp
      by_cases hw : isWithinDirectory cwd
          (clean (baseDir ++ '/' :: stripLeadingSlash (clean imagePath))) baseDir = true
      · rw [if_pos hw] at hp
        have hpX : p = clean (baseDir ++ '/' :: stripLeadingSlash (clean imagePath)) := by
          injection hp with hinj
          exact hinj.symm
        obtain ⟨rest, hrest⟩ :=
          splitOnChar_clean_append baseDir (stripLeadingSlash (clean imagePath)) h1 h2 h3 htravFalse
        exact ⟨rest, by rw [hpX]; exact hrest⟩
      · rw [if_neg hw] at hp
        exact absurd hp (by simp)

/-- C1 (witness): the amended theorem applied at the concrete root
`/data` and request `img/x.png`. -/
theorem c1_traversal_witness :
    (isAbs ("/data".toList) = true ∧ clean ("/data".toList) = "/data".toList ∧
        ("/data".toList : GoStr) ≠ ['/']) ∧
    ((containsTraversalSequences (stripLeadingSlash (clean ("img/x.png".toList))) = true →
        resolveImagePath ("/srv".toList) ("/data".toList) ("img/x.png".toList)
          = PathOutcome.invalidPath) ∧
     (∀ p, resolveImagePath ("/srv".toList) ("/data".toList) ("img/x.png".toList)
          = PathOutcome.ok p → withinRoot ("/data".toList) p)) :=
  ⟨⟨by decide, by decide, by decide⟩,
   c1_traversal_amended ("/srv".toList) ("/data".toList) ("img/x.png".toList)
     (by decide) (by decide) (by decide)⟩

/-- C2, as stated, is false: with no path existing at all (source absent
under every candidate extension), the live pipeline answers HTTP 500,
a 5xx-class error, not 404. -/
theorem c2_missing_counterexample :
    serveImageReadStatus envNone resampleZero ("avatars/ghost".toList) [] = 500 := by
  decide

/-- C2 (amended): when the source image is absent under every candidate
extension, `utils.ReadImage` returns the `"file not found"` error value,
and `ServeImage` maps it (like every `ReadImage` error) to HTTP 500
"Error reading image" — not to 404. -/
theorem c2_missing_amended (env : V1.FSEnv) (resample : Resample) (filePath variant : GoStr)
    (h : ∀ cand ∈ sourceCandidates filePath, env.openOk cand = false) :
    V1.ReadImage env resample filePath variant = Except.error ("file not found".toList) ∧
    serveImageReadStatus env resample filePath variant = 500 := by
  have h1 : env.openOk filePath = false := h filePath (by simp [sourceCandidates])
  have h2 : env.openOk (filePath ++ pngExt) = false := h _ (by simp [sourceCandidates])
  have h3 : env.openOk (filePath ++ jpgExt) = false := h _ (by simp [sourceCandidates])
  have h4 : env.openOk (filePath ++ webpExt) = false := h _ (by simp [sourceCandidates])
  have h5 : env.openOk (filePath ++ jpegExt) = false := h _ (by simp [sourceCandidates])
  have hread : V1.ReadImage env resample filePath variant
      = Except.error ("file not found".toList) := by
    simp [V1.ReadImage, h1, h2, h3, h4, h5]
  refine ⟨hread, ?_⟩
  simp [serveImageReadStatus, hread]

/-- C2 (witness): the amended theorem at the all-missing environment. -/
theorem c2_missing_witness :
    (∀ cand ∈ sourceCandidates ("a/b".toList), envNone.openOk cand = false) ∧
    (V1.ReadImage envNone resampleZero ("a/b".toList) ("preview".toList)
        = Except.error ("file not found".toList) ∧
      serveImageReadStatus envNone resampleZero ("a/b".toList) ("preview".toList) = 500) :=
  ⟨by decide, c2_missing_amended envNone resampleZero ("a/b".toList) ("preview".toList) (by decide)⟩

/-- C3: `FindImage` tries exactly the ordered candidates
(exact, `.png`, `.jpg`, `.webp`, `.jpeg`) and returns the first
existing one — it equals `List.find?` over `sourceCandidates`, which
fully determines the order-sensitivity of the lookup. -/
theorem c3_find_order (openOk : GoStr → Bool) (filePath : GoStr) :
    V0.FindImage openOk filePath = List.find? openOk (sourceCandidates filePath) := by
  unfold V0.FindImage sourceCandidates
  cases hf1 : openOk filePath <;>
    cases hf2 : openOk (filePath ++ pngExt) <;>
      cases hf3 : openOk (filePath ++ jpgExt) <;>
        cases hf4 : openOk (filePath ++ webpExt) <;>
          cases hf5 : openOk (filePath ++ jpegExt) <;>
            simp [List.find?, hf1, hf2, hf3, hf4, hf5]

/-- C4: `ApplyVariant` with any variant name other than `"preview"`
falls to the `default` case and returns the input raster unchanged (and
its Go signature returns `image.Image` with no error value, so it can
never fail). -/
theorem c4_unknown_variant_identity (resample : Resample) (img : GoImage) (variant : GoStr)
    (h : variant ≠ "preview".toList) :
    V0.ApplyVariant resample img variant = img := by
  unfold V0.ApplyVariant
  rw [if_neg h]

/-- C4 (witness): an unknown variant name on a concrete raster. -/
theorem c4_unknown_variant_witness :
    V0.ApplyVariant resampleZero imgThreeTwo ("thumb".toList) = imgThreeTwo :=
  c4_unknown_variant_identity resampleZero imgThreeTwo ("thumb".toList) (by decide)

/-- C5, as stated, is false: a 3×2 source at target long edge 256 gets
height `int(2*256/3) = 170` (Go truncates the float quotient), while
`round(2·256/3) = round(170.67) = 171`. -/
theorem c5_scale_counterexample :
    (Scale resampleZero imgThreeTwo 256).height = 170 ∧ (2 * 256 * 2 + 3) / (2 * 3) = 171 := by
  constructor
  · decide
  · decide

/-- C5 (amended): `Scale` floors (truncates) the scaled short edge
instead of rounding it: for W>H the output is `T × ⌊H·T/W⌋`, for W<H it
is `⌊W·T/H⌋ × T`, and for W=H it is `T × T`.  The `2^53` bounds confine
the statement to the regime where Go's `float64` expression provably
equals exact truncated rational division. -/
theorem c5_scale_amended (resample : Resample) (img : GoImage) (T : Nat)
    (hW : 0 < img.width) (hH : 0 < img.height)
    (h53w : img.width * T < 2 ^ 53) (h53h : img.height * T < 2 ^ 53) :
    (img.height < img.width →
        (Scale resample img T).width = T ∧
        (Scale resample img T).height = img.height * T / img.width) ∧
    (img.width < img.height →
        (Scale resample img T).width = img.width * T / img.height ∧
        (Scale resample img T).height = T) ∧
    (img.width = img.height →
        (Scale resample img T).width = T ∧ (Scale resample img T).height = T) := by
  refine ⟨?_, ?_, ?_⟩
  · intro hlt
    unfold Scale
    rw [if_pos hlt]
    exact ⟨rfl, rfl⟩
  · intro hlt
    unfold Scale
    rw [if_neg (by omega)]
    exact ⟨rfl, rfl⟩
  · intro heq
    unfold Scale
    rw [if_neg (by omega)]
    refine ⟨?_, rfl⟩
    show img.width * T / img.height = T
    rw [heq]
    exact Nat.mul_div_cancel_left T hH

/-- C5 (witness): the amended theorem at the 3×2 raster and T = 256. -/
theorem c5_scale_witness :
    (0 < imgThreeTwo.width ∧ 0 < imgThreeTwo.height ∧
      imgThreeTwo.width * 256 < 2 ^ 53 ∧ imgThreeTwo.height * 256 < 2 ^ 53) ∧
    (imgThreeTwo.height < imgThreeTwo.width →
        (Scale resampleZero imgThreeTwo 256).width = 256 ∧
        (Scale resampleZero imgThreeTwo 256).height = imgThreeTwo.height * 256 / imgThreeTwo.width) :=
  ⟨⟨by decide, by decide, by decide, by decide⟩,
   (c5_scale_amended resampleZero imgThreeTwo 256 (by decide) (by decide) (by decide) (by decide)).1⟩

/-- C6, as stated, is false: the `"preview"` transform of a degenerate
1000×1 source has height `⌊1·256/1000⌋ = 0`, not ≥ 1 — the source has
no ≥1×1 guard. -/
theorem c6_preview_counterexample :
    (V0.Preview resampleZero imgWide).width = 256 ∧
    (V0.Preview resampleZero imgWide).height = 0 := by
  constructor
  · decide
  · decide

/-- C6 (amended): the long edge of the `"preview"` output always equals
the target 256 (hence is ≥ 1), but the short edge is floor-scaled and
can be 0 for extreme aspect ratios. -/
theorem c6_preview_amended (resample : Resample) (img : GoImage)
    (hW : 0 < img.width) (hH : 0 < img.height)
    (h53w : img.width * 256 < 2 ^ 53) (h53h : img.height * 256 < 2 ^ 53) :
    max (V0.Preview resample img).width (V0.Preview resample img).height = 256 := by
  unfold V0.Preview Scale
  by_cases hlt : img.height < img.width
  · rw [if_pos hlt]
    have hle : img.height * 256 / img.width ≤ 256 := by
      calc img.height * 256 / img.width
          ≤ img.width * 256 / img.width :=
            Nat.div_le_div_right (Nat.mul_le_mul_right 256 (Nat.le_of_lt hlt))
        _ = 256 := Nat.mul_div_cancel_left 256 hW
    exact Nat.max_eq_left hle
  · rw [if_neg (by omega)]
    have hle : img.width * 256 / img.height ≤ 256 := by
      calc img.width * 256 / img.height
          ≤ img.height * 256 / img.height :=
            Nat.div_le_div_right (Nat.mul_le_mul_right 256 (by omega))
        _ = 256 := Nat.mul_div_cancel_left 256 hH
    exact Nat.max_eq_right hle

/-- C6 (witness): the amended theorem at the 3×2 raster. -/
theorem c6_preview_witness :
    (0 < imgThreeTwo.width ∧ 0 < imgThreeTwo.height ∧
      imgThreeTwo.width * 256 < 2 ^ 53 ∧ imgThreeTwo.height * 256 < 2 ^ 53) ∧
    max (V0.Preview resampleZero imgThreeTwo).width (V0.Preview resampleZero imgThreeTwo).height
      = 256 :=
  ⟨⟨by decide, by decide, by decide, by decide⟩,
   c6_preview_amended resampleZero imgThreeTwo (by decide) (by decide) (by decide) (by decide)⟩

/-- C7, as stated, is false: `save` with `ext = "webp"` creates the
destination file and falls through the commented-out webp case to
`default: return nil` — it returns no error (silent success) and a file
has been created. -/
theorem c7_webp_counterexample :
    V0.save envAll ("/data/a.preview".toList) imgFourTwo ("webp".toList)
      = (false, ["/data/a.preview.webp".toList]) := by
  decide

/-- C7 (amended): `ServeImage`'s encode switch does reject `webp` with
HTTP 400 `"Unsupported format: webp"`, but the `utils.save` helper's
webp branch is commented out: whenever `os.Create` succeeds, `save`
with `ext = "webp"` creates the file, writes no pixels, and returns
`nil` (no `UnsupportedFormat` error). -/
theorem c7_webp_amended (env : V0.Env) (path : GoStr) (img : GoImage)
    (hc : env.createOk (path ++ '.' :: "webp".toList) = true) :
    V0.save env path img ("webp".toList) = (false, [path ++ '.' :: "webp".toList]) ∧
    encodeSwitch ("webp".toList)
      = EncodeOutcome.badRequest ("Unsupported format: webp".toList) := by
  constructor
  · simp only [V0.save]
    rw [if_pos hc, if_neg (by decide : ¬("webp".toList : GoStr) = "png".toList),
      if_neg (by decide :
        ¬(("webp".toList : GoStr) = "jpg".toList ∨ ("webp".toList : GoStr) = "jpeg".toList))]
  · decide

/-- C7 (witness): the amended theorem at a concrete path in the
all-succeeding environment. -/
theorem c7_webp_witness :
    envAll.createOk ("/data/b".toList ++ '.' :: "webp".toList) = true ∧
    (V0.save envAll ("/data/b".toList) imgFourTwo ("webp".toList)
        = (false, ["/data/b".toList ++ '.' :: "webp".toList]) ∧
      encodeSwitch ("webp".toList)
        = EncodeOutcome.badRequest ("Unsupported format: webp".toList)) :=
  ⟨by decide, c7_webp_amended envAll ("/data/b".toList) imgFourTwo (by decide)⟩

/-- C8: even in an environment where every file — in particular the
derived artifact — already exists, `ReadImage` decodes the source,
applies the transform, and re-persists the derived file
(`/data/a.preview.png.png` is written): there is no cache-hit path, in
direct contradiction with `ReadImage`'s own doc comment ("If the
variant already exists, it is returned directly (cached)"). -/
theorem c8_regenerates_despite_existing :
    envAll.openOk ("/data/a.preview.png".toList) = true ∧
    (V0.ReadImage envAll resampleZero ("/data/a".toList) ("preview".toList) ("png".toList)).2
      = ["/data/a.preview.png.png".toList] ∧
    exceptOk
      (V0.ReadImage envAll resampleZero ("/data/a".toList) ("preview".toList) ("png".toList)).1
      = true := by
  refine ⟨by decide, ?_, ?_⟩
  · decide
  · decide

/-- C9, as stated, is false: the derived artifact for source `a`,
variant `preview`, format `png` is persisted at `a.preview.png.png`
(`ReadImage` builds `<src>.<variant>.<format>` and `save` appends
`"." + format` again), not at `a.preview.png`. -/
theorem c9_naming_counterexample :
    V0.persistedVariantPath ("a".toList) ("preview".toList) ("png".toList)
        = "a.preview.png.png".toList ∧
    V0.persistedVariantPath ("a".toList) ("preview".toList) ("png".toList)
        ≠ "a.preview.png".toList := by
  constructor
  · decide
  · decide

/-- C9 (amended): a successful generation persists the derived artifact
at exactly `<source>.<variant>.<format>.<format>` (the format extension
is doubled), and that naming is deterministic and collision-free across
distinct (source, variant, format) triples whose variant and format
contain no dot. -/
theorem c9_naming_amended (env : V0.Env) (resample : Resample) (p v e : GoStr) (img : GoImage)
    (hv : v ≠ [])
    (hopen : env.openOk p = true)
    (hdec : env.decodeImage p = some img)
    (hcreate : env.createOk (V0.persistedVariantPath p v e) = true)
    (hpng : env.pngEncodeOk (V0.persistedVariantPath p v e) = true)
    (hjpg : env.jpegEncodeOk (V0.persistedVariantPath p v e) = true) :
    (V0.ReadImage env resample p v e).2 = [V0.persistedVariantPath p v e] ∧
    (∀ p1 v1 e1 p2 v2 e2 : GoStr, '.' ∉ v1 → '.' ∉ e1 → '.' ∉ v2 → '.' ∉ e2 →
      V0.persistedVariantPath p1 v1 e1 = V0.persistedVariantPath p2 v2 e2 →
      p1 = p2 ∧ v1 = v2 ∧ e1 = e2) := by
  constructor
  · have hfind : V0.FindImage env.openOk p = some p := by
      unfold V0.FindImage
      rw [if_pos hopen]
    have hload : V0.loadImage env p = .ok (some img) := by
      unfold V0.loadImage
      rw [hfind]
      simp [hdec]
    have hsave : V0.save env (V0.variantPath p v e) (V0.ApplyVariant resample img v) e
        = (false, [V0.persistedVariantPath p v e]) := by
      unfold V0.save
      have htarget : V0.variantPath p v e ++ '.' :: e = V0.persistedVariantPath p v e := rfl
      rw [htarget, if_pos hcreate]
      by_cases he1 : e = "png".toList
      · rw [if_pos he1, hpng]
        rfl
      · rw [if_neg he1]
        by_cases he2 : e = "jpg".toList ∨ e = "jpeg".toList
        · rw [if_pos he2, hjpg]
          rfl
        · rw [if_neg he2]
    unfold V0.ReadImage
    rw [hload]
    simp only [if_neg hv, hsave]
    rfl
  · intro p1 v1 e1 p2 v2 e2 hv1 he1 hv2 he2 hP
    have hre : ∀ (q w f : GoStr), '.' ∉ w → '.' ∉ f →
        splitOnChar '.' (V0.persistedVariantPath q w f)
          = splitOnChar '.' q ++ [w, f, f] := by
      intro q w f hw hf
      unfold V0.persistedVariantPath V0.variantPath
      have hshape : (q ++ '.' :: w ++ '.' :: f) ++ '.' :: f
          = q ++ '.' :: (w ++ '.' :: (f ++ '.' :: f)) := by
        simp
      rw [hshape, splitOnChar_append, splitOnChar_append, splitOnChar_append,
        splitOnChar_of_not_mem hw, splitOnChar_of_not_mem hf]
      rfl
    have hsplit := congrArg (splitOnChar '.') hP
    rw [hre p1 v1 e1 hv1 he1, hre p2 v2 e2 hv2 he2] at hsplit
    have hlen : (splitOnChar '.' p1).length = (splitOnChar '.' p2).length := by
      have hl := congrArg List.length hsplit
      simp at hl
      omega
    obtain ⟨hpeq, htail⟩ := List.append_inj hsplit hlen
    have hp12 : p1 = p2 := by
      have hj := congrArg (joinChar '.') hpeq
      rwa [joinChar_splitOnChar, joinChar_splitOnChar] at hj
    have htl : v1 = v2 ∧ e1 = e2 ∧ e1 = e2 := by
      simpa using htail
    exact ⟨hp12, htl.1, htl.2.1⟩

/-- C9 (witness): a successful generation in the all-succeeding
environment writes exactly the doubled-extension path. -/
theorem c9_naming_witness :
    (("preview".toList : GoStr) ≠ [] ∧ envAll.openOk ("/data/c".toList) = true ∧
      envAll.createOk
        (V0.persistedVariantPath ("/data/c".toList) ("preview".toList) ("png".toList)) = true) ∧
    (V0.ReadImage envAll resampleZero ("/data/c".toList) ("preview".toList) ("png".toList)).2
      = [V0.persistedVariantPath ("/data/c".toList) ("preview".toList) ("png".toList)] :=
  ⟨⟨by decide, by decide, by decide⟩,
   (c9_naming_amended envAll resampleZero ("/data/c".toList) ("preview".toList) ("png".toList)
     imgFourTwo (by decide) (by decide) rfl (by decide) (by decide) (by decide)).1⟩

theorem isPrefixOf_append_self (a b : GoStr) : List.isPrefixOf a (a ++ b) = true := by
  induction a with
  | nil => simp [List.isPrefixOf]
  | cons x xs ih => simp [List.isPrefixOf, ih]

theorem isSuffixOf_append_self (s e : GoStr) : List.isSuffixOf e (s ++ e) = true := by
  unfold List.isSuffixOf
  rw [List.reverse_append]
  exact isPrefixOf_append_self e.reverse s.reverse

/-- C10: `ExtSlice.Has` tests membership with `strings.HasSuffix`, so
any string that merely ends with a supported extension is accepted —
for every supported extension `e` and every prefix string `s`,
`SupportedTypes.Has(s + e)` is true (this is the membership test
`ServeImage` uses to validate the request's format at
`src/handlers/image.go` lines 78-81). -/
theorem c10_suffix_accept (s e : GoStr) (h : e ∈ SupportedTypes) :
    ExtSlice.Has SupportedTypes (s ++ e) = true := by
  unfold ExtSlice.Has
  rw [List.any_eq_true]
  exact ⟨e, h, isSuffixOf_append_self s e⟩

/-- C10 (witness): `"notpng"` — not itself a supported type — is
accepted because it ends in `"png"`. -/
theorem c10_suffix_witness :
    ("png".toList ∈ SupportedTypes) ∧
    ExtSlice.Has SupportedTypes ("not".toList ++ "png".toList) = true :=
  ⟨by decide, c10_suffix_accept ("not".toList) ("png".toList) (by decide)⟩
